import Mathlib

set_option maxHeartbeats 1000000

/-!
Shallow embedding of the file-relocation engine of the move_files_gui
repository (function move_files_thread in src/main.rs) and proofs of the
frozen claims about it.

Modelling conventions:
* Rust string slices are modelled as lists of characters (RStr); the engine
  only inspects them character by character, so this is faithful.  All
  strings in the model are valid UTF-8, hence OsStr::to_str is the identity;
  the Option layer kept on stems models the non-UTF-8 case.
* The filesystem is abstracted: the output directory is the list of base
  names currently existing in it, a traversed regular file is its base name
  (Path::file_name, always present for a regular file reached by the
  traversal) together with a boolean telling whether fs::rename succeeds on
  it.  Joining the output directory with a base name is modelled by the base
  name itself.
* Progress messages sent over the channel are modelled by the Event type;
  payloads abstract the formatted strings.
-/

namespace MoveFilesGui

/-- Rust str values, modelled as lists of characters. -/
abbrev RStr := List Char

/-- Conversion from a Lean string literal to the model representation. -/
def str (s : String) : RStr := s.toList

/-- Whitespace test used by the model of Rust str::trim (space, tab,
carriage return, newline; the engine is only ever sensitive to these). -/
def isWs (c : Char) : Bool := c.isWhitespace

/-- Model of Rust str::trim: remove whitespace from both ends. -/
def trimWs (s : RStr) : RStr :=
  ((s.dropWhile isWs).reverse.dropWhile isWs).reverse

/-- Model of trim_start_matches applied to the dot pattern, as on line 68 of
src/main.rs: Rust trim_start_matches removes the matching prefix repeatedly,
so every leading dot is removed. -/
def dropDots (s : RStr) : RStr := s.dropWhile (fun c => c = '.')

/-- Model of str::to_lowercase restricted to ASCII: Char.toLower maps the
range A-Z to a-z and keeps every other character. -/
def toLowerR (s : RStr) : RStr := s.map Char.toLower

/-- Model of str::split with separator comma: the pieces between commas,
empty pieces kept, as Rust split yields them. -/
def splitComma : RStr → List RStr
  | [] => [[]]
  | c :: rest =>
    let r := splitComma rest
    if c = ',' then [] :: r
    else (c :: r.headD []) :: r.tail

/-- Normalized extension filter, from lines 66-70 of src/main.rs: split the
raw extensions string on commas, trim each piece, strip its leading dots,
lowercase it, and drop empty results. -/
def normalizeExts (s : RStr) : List RStr :=
  ((splitComma s).map (fun e => toLowerR (dropDots (trimWs e)))).filter
    (fun e => !e.isEmpty)

/-- Modelled from the claim wording (not from the source): the same
normalization pipeline but stripping at most a single leading dot, used to
compare the claim against the source behaviour. -/
def stripOneDot : RStr → RStr
  | '.' :: rest => rest
  | s => s

/-- Modelled from the claim wording (not from the source): normalization as
the claim of a single stripped dot describes it. -/
def normalizeSpecSingleDot (s : RStr) : List RStr :=
  ((splitComma s).map (fun e => toLowerR (stripOneDot (trimWs e)))).filter
    (fun e => !e.isEmpty)

/-- Modelled from the amended claim wording: normalization stripping all
leading dots, written independently of the source-side combinators. -/
def stripAllDots : RStr → RStr
  | [] => []
  | c :: rest => if c = '.' then stripAllDots rest else c :: rest

/-- Modelled from the amended claim wording: the full amended normalization
pipeline. -/
def normalizeSpecAllDots (s : RStr) : List RStr :=
  ((splitComma s).map (fun e => toLowerR (stripAllDots (trimWs e)))).filter
    (fun e => !e.isEmpty)

/-- Model of Path::extension on a base name, following the Rust standard
library rule: the portion of the name after the final dot, none when there
is no dot, when the only dot is the leading character, or for the special
name consisting of two dots. -/
def rustExtension (name : RStr) : Option RStr :=
  if name = ['.', '.'] then none
  else
    match name.reverse.dropWhile (fun c => ¬ c = '.') with
    | [] => none
    | [_] => none
    | _ :: _ :: _ => some (name.reverse.takeWhile (fun c => ¬ c = '.')).reverse

/-- Model of Path::file_stem on a base name: the portion before the final
dot, the whole name when there is no dot or only a leading one, and the
whole name for the special two-dot name. -/
def rustFileStem (name : RStr) : RStr :=
  if name = ['.', '.'] then name
  else
    match name.reverse.dropWhile (fun c => ¬ c = '.') with
    | [] => name
    | [_] => name
    | _ :: b :: before => (b :: before).reverse

/-- Eligibility test from lines 88-94 and 147-153 of src/main.rs: with an
empty filter every file is moved; otherwise a file is moved exactly when it
has an extension whose lowercasing is contained in the filter. -/
def shouldMove (filterExts : List RStr) (ext : Option RStr) : Bool :=
  if filterExts.isEmpty then true
  else
    match ext with
    | some e => filterExts.contains (toLowerR e)
    | none => false

example : normalizeExts (str "pdf, JPG , .png") = [str "pdf", str "jpg", str "png"] := by decide
example : normalizeExts (str "") = [] := by decide
example : normalizeExts (str "..pdf") = [str "pdf"] := by decide
example : normalizeSpecSingleDot (str "..pdf") = [str ".pdf"] := by decide
example : rustExtension (str "report.PDF") = some (str "PDF") := by decide
example : rustExtension (str ".gitignore") = none := by decide
example : rustExtension (str "a.tar.gz") = some (str "gz") := by decide
example : rustExtension (str "foo.") = some [] := by decide
example : rustFileStem (str "a.txt") = str "a" := by decide
example : rustFileStem (str ".gitignore") = str ".gitignore" := by decide
example : shouldMove (normalizeExts (str "pdf, JPG , .png")) (rustExtension (str "report.PDF")) = true := by decide
example : shouldMove (normalizeExts (str "pdf, JPG , .png")) (rustExtension (str "image.jpeg")) = false := by decide
example : normalizeExts (str ". a") = [str " a"] := by decide
example : normalizeExts (str " a") = [str "a"] := by decide

/-- Decimal digit characters of a natural number, most significant first,
with explicit fuel so that the definition reduces in the kernel; natRepr
below supplies adequate fuel.  This models the rendering of the collision
counter by the format macro. -/
def natReprAux : Nat → Nat → List Char
  | 0, _ => []
  | fuel + 1, n =>
    if n < 10 then [Nat.digitChar n]
    else natReprAux fuel (n / 10) ++ [Nat.digitChar (n % 10)]

/-- Decimal representation of a natural number as a character list. -/
def natRepr (n : Nat) : List Char := natReprAux (n + 1) n

example : natRepr 1 = str "1" := by decide
example : natRepr 12 = str "12" := by decide
example : natRepr 120 = str "120" := by decide

/-- Counter-suffixed candidate name built on lines 107-111 and 163-167 of
src/main.rs: stem, underscore, counter, and the dotted extension when the
source file has one. -/
def candName (stem : RStr) (ext : Option RStr) (n : Nat) : RStr :=
  match ext with
  | some e => stem ++ '_' :: natRepr n ++ '.' :: e
  | none => stem ++ '_' :: natRepr n

/-- Collision probe loop of lines 101-114 and 157-170 of src/main.rs: while
the current candidate exists in the output directory, replace it by the
counter-suffixed name and increment the counter.  The loop is written with
explicit fuel; resolveDest supplies fuel sufficient for termination, and the
stem falls back to the literal name file when undetermined, as in the
source. -/
def probeLoop (existing : List RStr) (stemOpt : Option RStr) (ext : Option RStr) :
    Nat → RStr → Nat → RStr
  | 0, dest, _ => dest
  | fuel + 1, dest, counter =>
    if dest ∈ existing then
      probeLoop existing stemOpt ext fuel
        (candName (stemOpt.getD (str "file")) ext counter) (counter + 1)
    else dest

/-- Destination resolution for one file: start from the base name of the
source file and run the collision probe with counter 1. -/
def resolveDest (existing : List RStr) (fname : RStr) (stemOpt : Option RStr)
    (ext : Option RStr) : RStr :=
  probeLoop existing stemOpt ext (existing.length + 2) fname 1

example : resolveDest [] (str "a.txt") (some (str "a")) (some (str "txt")) = str "a.txt" := by decide
example : resolveDest [str "a.txt"] (str "a.txt") (some (str "a")) (some (str "txt")) = str "a_1.txt" := by decide
example : resolveDest [str "a.txt", str "a_1.txt"] (str "a.txt") (some (str "a")) (some (str "txt")) = str "a_2.txt" := by decide
example : resolveDest [str "x"] (str "x") (some (str "x")) none = str "x_1" := by decide

/-- Progress messages sent over the channel, abstracted from their formatted
strings: the invalid-input message, a successful move with source and
destination names, a failed move, the invalid-name skip warning, and the
final completion message. -/
inductive Event where
  | invalidInput : Event
  | moved : RStr → RStr → Event
  | moveError : RStr → Event
  | skippedInvalidName : Event
  | completed : Event
deriving DecidableEq

/-- One regular file reached by the traversal: its base name as returned by
Path::file_name (none models the defensive invalid-name case, which cannot
occur for a traversed regular file) and whether fs::rename succeeds on it
(rename failure is environmental, for instance a cross-device move). -/
structure RFile where
  name : Option RStr
  renameOk : Bool
deriving DecidableEq

/-- Extension of the full path of a file, as used by the eligibility test:
the extension of its base name when that name exists. -/
def pathExt (f : RFile) : Option RStr :=
  match f.name with
  | some n => rustExtension n
  | none => none

/-- Processing of a single file, lines 85-137 and 147-193 of src/main.rs:
test eligibility, resolve the destination, attempt the rename, and emit the
matching event; returns the emitted events and the updated contents of the
output directory (a successful rename adds the destination name). -/
def processFile (filter : List RStr) (existing : List RStr) (f : RFile) :
    List Event × List RStr :=
  if shouldMove filter (pathExt f) then
    match f.name with
    | some fname =>
      let dest := resolveDest existing fname (some (rustFileStem fname)) (rustExtension fname)
      if f.renameOk then ([Event.moved fname dest], dest :: existing)
      else ([Event.moveError fname], existing)
    | none => ([Event.skippedInvalidName], existing)
  else ([], existing)

/-- Sequential processing of the traversed files in traversal order,
threading the output-directory contents through. -/
def processAll (filter : List RStr) : List RStr → List RFile → List Event × List RStr
  | existing, [] => ([], existing)
  | existing, f :: fs =>
    let p := processFile filter existing f
    let rest := processAll filter p.2 fs
    (p.1 ++ rest.1, rest.2)

/-- Observable outcome of one engine run: the events sent over the channel
in order, whether the function returned Ok, and whether the output
directory was created (fs::create_dir_all on line 62 succeeded). -/
structure RunResult where
  events : List Event
  ok : Bool
  dirCreated : Bool
deriving DecidableEq

/-- Directory-mode run of move_files_thread (lines 61-77, 79-139, 195-196):
create the output directory (abort silently on failure), validate that the
input is a directory, process the traversed files, and send the completion
message.  createDirOk tells whether fs::create_dir_all succeeds, isDir
whether the input path is a directory, existing0 the initial contents of
the output directory, files the regular files found by the walk in
traversal order. -/
def runDirectory (exts : RStr) (createDirOk isDir : Bool) (existing0 : List RStr)
    (files : List RFile) : RunResult :=
  if createDirOk then
    if isDir then
      { events := (processAll (normalizeExts exts) existing0 files).1 ++ [Event.completed]
        ok := true
        dirCreated := true }
    else { events := [Event.invalidInput], ok := false, dirCreated := true }
  else { events := [], ok := false, dirCreated := false }

/-- Single-file-mode run of move_files_thread (lines 61-70, 140-193,
195-196): create the output directory, validate that the input is a regular
file, process that one file, and send the completion message. -/
def runSingleFile (exts : RStr) (createDirOk isFile : Bool) (existing0 : List RStr)
    (f : RFile) : RunResult :=
  if createDirOk then
    if isFile then
      { events := (processFile (normalizeExts exts) existing0 f).1 ++ [Event.completed]
        ok := true
        dirCreated := true }
    else { events := [Event.invalidInput], ok := false, dirCreated := true }
  else { events := [], ok := false, dirCreated := false }

example :
    runSingleFile (str "jpg") true true [] { name := some (str "report.pdf"), renameOk := true } =
      { events := [Event.completed], ok := true, dirCreated := true } := by decide

example :
    runDirectory (str "") true true [str "a.txt"]
      [{ name := some (str "a.txt"), renameOk := true },
       { name := some (str "b.txt"), renameOk := true }] =
      { events := [Event.moved (str "a.txt") (str "a_1.txt"),
                   Event.moved (str "b.txt") (str "b.txt"), Event.completed],
        ok := true, dirCreated := true } := by decide

/-- Helper: the source-side dot stripping (dropWhile) agrees with the
spec-side recursive strip-all-dots function. -/
theorem dropDots_eq_stripAllDots (s : RStr) : dropDots s = stripAllDots s := by
  induction s with
  | nil => rfl
  | cons c rest ih =>
    show List.dropWhile (fun c => c = '.') (c :: rest) = stripAllDots (c :: rest)
    rw [List.dropWhile_cons, stripAllDots]
    by_cases hc : c = '.'
    · simp only [hc, decide_True, if_true]
      exact ih
    · simp [hc]

/-- C1: a file is eligible to move exactly when the normalized filter set is
empty or the lowercased extension of the file, compared without the dot, is
a member of the filter; a file with no extension is eligible only when the
filter is empty, and with a blank extensions input every file is
eligible. -/
theorem c1_eligibility (filter : List RStr) (ext : Option RStr) :
    (shouldMove filter ext = true ↔
      filter = [] ∨ ∃ e, ext = some e ∧ toLowerR e ∈ filter) ∧
    (shouldMove filter none = true ↔ filter = []) ∧
    shouldMove (normalizeExts (str "")) ext = true := by
  have hempty : ∀ ex : Option RStr, shouldMove [] ex = true := by
    intro ex; rfl
  refine ⟨?_, ?_, ?_⟩
  · by_cases hf : filter = []
    · subst hf; simp [hempty]
    · unfold shouldMove
      rw [if_neg (by simpa using hf)]
      cases ext with
      | none => simp [hf]
      | some e => simp [hf, List.contains]
  · by_cases hf : filter = []
    · subst hf; simp [hempty]
    · unfold shouldMove
      rw [if_neg (by simpa using hf)]
      simp [hf]
  · have h0 : normalizeExts (str "") = [] := by decide
    rw [h0]; exact hempty ext

/-- C3 counterexample: on the input made of two dots followed by pdf, the
source normalization (which strips every leading dot) differs from the
claimed normalization that strips a single leading dot. -/
theorem c3_counterexample :
    normalizeExts (str "..pdf") = [str "pdf"] ∧
    normalizeSpecSingleDot (str "..pdf") = [str ".pdf"] ∧
    ¬ normalizeExts (str "..pdf") = normalizeSpecSingleDot (str "..pdf") := by
  decide

/-- C3 amended: the normalized filter is obtained by splitting on comma,
trimming whitespace, stripping all leading dots, lowercasing, and dropping
empty results; the example input normalizes to pdf, jpg, png, under which
report.PDF is eligible and image.jpeg is not. -/
theorem c3_normalization_amended (s : RStr) :
    normalizeExts s = normalizeSpecAllDots s ∧
    normalizeExts (str "pdf, JPG , .png") = [str "pdf", str "jpg", str "png"] ∧
    shouldMove (normalizeExts (str "pdf, JPG , .png"))
      (rustExtension (str "report.PDF")) = true ∧
    shouldMove (normalizeExts (str "pdf, JPG , .png"))
      (rustExtension (str "image.jpeg")) = false := by
  refine ⟨?_, by decide, by decide, by decide⟩
  unfold normalizeExts normalizeSpecAllDots
  simp only [dropDots_eq_stripAllDots]

/-- C6 counterexample: when creating the output directory fails, the run
returns a failed result but emits no event at all, contradicting the
claimed single explanatory event in the stream. -/
theorem c6_counterexample :
    (runDirectory (str "") false true [] []).ok = false ∧
    (runDirectory (str "") false true [] []).events = [] ∧
    ¬ (runDirectory (str "") false true [] []).events.length = 1 := by
  decide

/-- C6 amended: if creating the output directory fails, the whole operation
aborts before any traversal begins and is surfaced to the caller as a
failed result, with no event emitted in the stream. -/
theorem c6_createdir_failure_aborts (exts : RStr) (isDir isFile : Bool)
    (existing : List RStr) (files : List RFile) (f : RFile) :
    runDirectory exts false isDir existing files =
      { events := [], ok := false, dirCreated := false } ∧
    runSingleFile exts false isFile existing f =
      { events := [], ok := false, dirCreated := false } := by
  exact ⟨rfl, rfl⟩

/-- C7: when the input path does not match the declared mode, the engine
emits an InvalidInput event, returns a failure with no file moved, and the
output directory has nevertheless already been created. -/
theorem c7_invalid_input_after_creation (exts : RStr) (existing : List RStr)
    (files : List RFile) (f : RFile) :
    runDirectory exts true false existing files =
      { events := [Event.invalidInput], ok := false, dirCreated := true } ∧
    runSingleFile exts true false existing f =
      { events := [Event.invalidInput], ok := false, dirCreated := true } := by
  exact ⟨rfl, rfl⟩

/-- Helper: the fuel argument of natReprAux is irrelevant once it exceeds
the represented number. -/
theorem natReprAux_fuel (n : Nat) : ∀ f g, n < f → n < g →
    natReprAux f n = natReprAux g n := by
  induction n using Nat.strong_induction_on with
  | _ n ih =>
    intro f g hf hg
    cases f with
    | zero => omega
    | succ f =>
      cases g with
      | zero => omega
      | succ g =>
        rw [natReprAux, natReprAux]
        by_cases h10 : n < 10
        · simp [h10]
        · simp only [h10, if_false]
          have hd : n / 10 < n := Nat.div_lt_self (by omega) (by omega)
          have := ih (n / 10) hd f g (by omega) (by omega)
          rw [this]

/-- Helper: recursion equation for natRepr. -/
theorem natRepr_eq (n : Nat) : natRepr n =
    if n < 10 then [Nat.digitChar n]
    else natRepr (n / 10) ++ [Nat.digitChar (n % 10)] := by
  unfold natRepr
  rw [natReprAux]
  by_cases h10 : n < 10
  · simp [h10]
  · simp only [h10, if_false]
    have hd : n / 10 < n := Nat.div_lt_self (by omega) (by omega)
    rw [natReprAux_fuel (n / 10) n (n / 10 + 1) hd (by omega)]

/-- Helper: a decimal representation is never the empty list. -/
theorem natRepr_ne_nil (n : Nat) : natRepr n ≠ [] := by
  rw [natRepr_eq]
  by_cases h10 : n < 10 <;> simp [h10]

/-- Helper: digit characters are distinct below ten. -/
theorem digitChar_inj {a b : Nat} (ha : a < 10) (hb : b < 10)
    (h : Nat.digitChar a = Nat.digitChar b) : a = b := by
  interval_cases a <;> interval_cases b <;> first | rfl | exact absurd h (by decide)

/-- Helper: the decimal representation is injective. -/
theorem natRepr_inj : ∀ {a b : Nat}, natRepr a = natRepr b → a = b := by
  intro a
  induction a using Nat.strong_induction_on with
  | _ a ih =>
    intro b h
    rw [natRepr_eq a, natRepr_eq b] at h
    by_cases ha : a < 10 <;> by_cases hb : b < 10
    · simp only [ha, hb, if_true] at h
      exact digitChar_inj ha hb (by simpa using h)
    · exfalso
      simp only [ha, hb, if_true, if_false] at h
      have hl := congrArg List.length h
      simp only [List.length_append, List.length_singleton] at hl
      have h0 : (natRepr (b / 10)).length = 0 := by omega
      exact natRepr_ne_nil (b / 10) (List.length_eq_zero.mp h0)
    · exfalso
      simp only [ha, hb, if_true, if_false] at h
      have hl := congrArg List.length h
      simp only [List.length_append, List.length_singleton] at hl
      have h0 : (natRepr (a / 10)).length = 0 := by omega
      exact natRepr_ne_nil (a / 10) (List.length_eq_zero.mp h0)
    · simp only [ha, hb, if_false] at h
      obtain ⟨h1, h2⟩ := List.append_inj' h (by simp)
      have hd : a / 10 < a := Nat.div_lt_self (by omega) (by omega)
      have e1 : a / 10 = b / 10 := ih (a / 10) hd h1
      have e2 : a % 10 = b % 10 :=
        digitChar_inj (Nat.mod_lt _ (by omega)) (Nat.mod_lt _ (by omega)) (by simpa using h2)
      omega

/-- Helper: for a fixed stem and extension, distinct counters give distinct
candidate names. -/
theorem candName_inj (stem : RStr) (ext : Option RStr) {a b : Nat}
    (h : candName stem ext a = candName stem ext b) : a = b := by
  cases ext with
  | some e =>
    simp only [candName] at h
    have h1 := List.append_cancel_right h
    have h2 := List.append_cancel_left h1
    injection h2 with _ h3
    exact natRepr_inj h3
  | none =>
    simp only [candName] at h
    have h2 := List.append_cancel_left h
    injection h2 with _ h3
    exact natRepr_inj h3

/-- Helper: the probe loop returns a candidate that is not in the output
directory unchanged. -/
theorem probeLoop_not_mem {existing : List RStr} {stemOpt ext : Option RStr}
    {dest : RStr} (h : dest ∉ existing) (fuel counter : Nat) :
    probeLoop existing stemOpt ext fuel dest counter = dest := by
  cases fuel with
  | zero => rfl
  | succ fuel =>
    rw [probeLoop]
    exact if_neg h

/-- Helper: given enough fuel, the probe loop started on a colliding
candidate returns the candidate of the least free counter at or above the
current counter. -/
theorem probeLoop_spec (existing : List RStr) (stemOpt ext : Option RStr) (N : Nat)
    (hfree : candName (stemOpt.getD (str "file")) ext N ∉ existing) :
    ∀ fuel counter dest, counter ≤ N →
      (∀ m, counter ≤ m → m < N →
        candName (stemOpt.getD (str "file")) ext m ∈ existing) →
      dest ∈ existing → N + 1 ≤ counter + fuel →
      probeLoop existing stemOpt ext fuel dest counter =
        candName (stemOpt.getD (str "file")) ext N := by
  intro fuel
  induction fuel with
  | zero =>
    intro counter dest h1 _ _ h4
    omega
  | succ fuel ih =>
    intro counter dest hcn hmem hdest hfuel
    rw [probeLoop, if_pos hdest]
    by_cases hc : counter = N
    · subst hc
      exact probeLoop_not_mem hfree fuel (counter + 1)
    · exact ih (counter + 1) _ (by omega)
        (fun m hm1 hm2 => hmem m (by omega) hm2)
        (hmem counter le_rfl (by omega)) (by omega)

/-- Helper: among the first length-plus-one counters there is one whose
candidate name is absent from the output directory. -/
theorem exists_free_cand (existing : List RStr) (stem : RStr) (ext : Option RStr) :
    ∃ n, 1 ≤ n ∧ n ≤ existing.length + 1 ∧ candName stem ext n ∉ existing := by
  by_contra hall
  push_neg at hall
  have hL5 : ((List.range (existing.length + 1)).map
      (fun i => candName stem ext (i + 1))).length = existing.length + 1 := by
    simp
  have hnd : ((List.range (existing.length + 1)).map
      (fun i => candName stem ext (i + 1))).Nodup := by
    refine List.Nodup.map ?_ (List.nodup_range _)
    intro i j hij
    have := candName_inj stem ext hij
    omega
  have hsub : ((List.range (existing.length + 1)).map
      (fun i => candName stem ext (i + 1))).toFinset ⊆ existing.toFinset := by
    intro x hx
    rw [List.mem_toFinset] at hx
    rw [List.mem_toFinset]
    simp only [List.mem_map, List.mem_range] at hx
    obtain ⟨i, hi, rfl⟩ := hx
    exact hall (i + 1) (by omega) (by omega)
  have h1 := List.toFinset_card_of_nodup hnd
  have h3 := Finset.card_le_card hsub
  have h4 := List.toFinset_card_le (l := existing)
  omega

/-- C2: for every eligible file, the candidate destination is the output
directory joined with the base name of the source file, used as-is when
nothing exists there; otherwise the resolved destination carries the
smallest positive counter whose stem-underscore-counter name (with the
dotted extension when the source has one) does not already exist in the
output directory, the stem falling back to the literal name file when it
cannot be determined. -/
theorem c2_destination_resolution (existing : List RStr) (fname : RStr)
    (stemOpt ext : Option RStr) :
    (fname ∉ existing → resolveDest existing fname stemOpt ext = fname) ∧
    (fname ∈ existing → ∃ n, 1 ≤ n ∧
      resolveDest existing fname stemOpt ext =
        candName (stemOpt.getD (str "file")) ext n ∧
      candName (stemOpt.getD (str "file")) ext n ∉ existing ∧
      ∀ m, 1 ≤ m → m < n →
        candName (stemOpt.getD (str "file")) ext m ∈ existing) := by
  constructor
  · intro h
    exact probeLoop_not_mem h _ _
  · intro h
    obtain ⟨n0, hn01, hn0k, hn0free⟩ :=
      exists_free_cand existing (stemOpt.getD (str "file")) ext
    have hex : ∃ n, 1 ≤ n ∧ candName (stemOpt.getD (str "file")) ext n ∉ existing :=
      ⟨n0, hn01, hn0free⟩
    have hNs := Nat.find_spec hex
    have hmin : ∀ m, 1 ≤ m → m < Nat.find hex →
        candName (stemOpt.getD (str "file")) ext m ∈ existing := by
      intro m h1 h2
      have hnm := Nat.find_min hex h2
      by_contra hnot
      exact hnm ⟨h1, hnot⟩
    have hNle : Nat.find hex ≤ n0 := Nat.find_min' hex ⟨hn01, hn0free⟩
    refine ⟨Nat.find hex, hNs.1, ?_, hNs.2, hmin⟩
    exact probeLoop_spec existing stemOpt ext (Nat.find hex) hNs.2
      (existing.length + 2) 1 fname hNs.1 hmin h (by omega)

/-- C2 witness: with a.txt and a_1.txt already present, the colliding
source a.txt resolves to the candidate of the least free counter. -/
theorem c2_witness :
    str "a.txt" ∈ [str "a.txt", str "a_1.txt"] ∧
    (∃ n, 1 ≤ n ∧
      resolveDest [str "a.txt", str "a_1.txt"] (str "a.txt")
          (some (str "a")) (some (str "txt")) =
        candName ((some (str "a")).getD (str "file")) (some (str "txt")) n ∧
      candName ((some (str "a")).getD (str "file")) (some (str "txt")) n ∉
        [str "a.txt", str "a_1.txt"] ∧
      ∀ m, 1 ≤ m → m < n →
        candName ((some (str "a")).getD (str "file")) (some (str "txt")) m ∈
          [str "a.txt", str "a_1.txt"]) :=
  ⟨by decide, (c2_destination_resolution [str "a.txt", str "a_1.txt"] (str "a.txt")
    (some (str "a")) (some (str "txt"))).2 (by decide)⟩

/-- Helper: processing one file never sends the completion message. -/
theorem completed_not_mem_processFile (filter ex : List RStr) (f : RFile) :
    Event.completed ∉ (processFile filter ex f).1 := by
  unfold processFile
  split
  · split
    · split <;> simp
    · simp
  · simp

/-- Helper: processing the traversed files never sends the completion
message. -/
theorem completed_not_mem_processAll (filter : List RStr) :
    ∀ (files : List RFile) (ex : List RStr),
      Event.completed ∉ (processAll filter ex files).1 := by
  intro files
  induction files with
  | nil => intro ex; simp [processAll]
  | cons f fs ih =>
    intro ex
    simp only [processAll]
    intro hmem
    rcases List.mem_append.mp hmem with h | h
    · exact completed_not_mem_processFile filter ex f h
    · exact ih _ h

/-- Helper: processing a concatenation of file lists processes the first
part and then the second from the updated output-directory state. -/
theorem processAll_append (filter : List RStr) :
    ∀ (l₁ l₂ : List RFile) (ex : List RStr),
      processAll filter ex (l₁ ++ l₂) =
        ((processAll filter ex l₁).1 ++
            (processAll filter (processAll filter ex l₁).2 l₂).1,
          (processAll filter (processAll filter ex l₁).2 l₂).2) := by
  intro l₁
  induction l₁ with
  | nil => intro l₂ ex; simp [processAll]
  | cons f fs ih =>
    intro l₂ ex
    simp only [List.cons_append, processAll, List.append_eq]
    rw [ih]
    simp [List.append_assoc]

/-- Helper: evaluation of processFile on an eligible named file, split on
whether the rename succeeds. -/
theorem processFile_eligible (filter ex : List RStr) (n : RStr) (rok : Bool)
    (helig : shouldMove filter (rustExtension n) = true) :
    processFile filter ex { name := some n, renameOk := rok } =
      if rok then
        ([Event.moved n (resolveDest ex n (some (rustFileStem n)) (rustExtension n))],
          resolveDest ex n (some (rustFileStem n)) (rustExtension n) :: ex)
      else ([Event.moveError n], ex) := by
  unfold processFile pathExt
  simp only [helig, if_true]

/-- C4: for every run that passes output-directory creation and the initial
input-path validation, in either mode, the completion event is emitted
exactly once and strictly last and the engine returns success; a run that
fails directory creation or input validation never emits the completion
event. -/
theorem c4_completed_once_and_last (exts : RStr) (createDirOk isDir isFile : Bool)
    (existing : List RStr) (files : List RFile) (f : RFile) :
    (createDirOk = true → isDir = true →
      ∃ E, (runDirectory exts createDirOk isDir existing files).events =
          E ++ [Event.completed] ∧
        Event.completed ∉ E ∧
        (runDirectory exts createDirOk isDir existing files).ok = true) ∧
    (¬ (createDirOk = true ∧ isDir = true) →
      Event.completed ∉ (runDirectory exts createDirOk isDir existing files).events) ∧
    (createDirOk = true → isFile = true →
      ∃ E, (runSingleFile exts createDirOk isFile existing f).events =
          E ++ [Event.completed] ∧
        Event.completed ∉ E ∧
        (runSingleFile exts createDirOk isFile existing f).ok = true) ∧
    (¬ (createDirOk = true ∧ isFile = true) →
      Event.completed ∉ (runSingleFile exts createDirOk isFile existing f).events) := by
  refine ⟨?_, ?_, ?_, ?_⟩
  · intro h1 h2
    subst h1; subst h2
    exact ⟨(processAll (normalizeExts exts) existing files).1, rfl,
      completed_not_mem_processAll _ files existing, rfl⟩
  · intro hnot
    cases createDirOk with
    | false => simp [runDirectory]
    | true =>
      cases isDir with
      | false => simp [runDirectory]
      | true => exact absurd ⟨rfl, rfl⟩ hnot
  · intro h1 h2
    subst h1; subst h2
    exact ⟨(processFile (normalizeExts exts) existing f).1, rfl,
      completed_not_mem_processFile _ existing f, rfl⟩
  · intro hnot
    cases createDirOk with
    | false => simp [runSingleFile]
    | true =>
      cases isFile with
      | false => simp [runSingleFile]
      | true => exact absurd ⟨rfl, rfl⟩ hnot

/-- C4 witness: a directory run with no files emits exactly the completion
event, last, and returns success. -/
theorem c4_witness :
    ∃ E, (runDirectory (str "") true true [] []).events = E ++ [Event.completed] ∧
      Event.completed ∉ E ∧ (runDirectory (str "") true true [] []).ok = true :=
  (c4_completed_once_and_last (str "") true true true [] []
    { name := none, renameOk := true }).1 rfl rfl

/-- C5: a failed rename of an eligible file produces a MoveError event for
that file, the remaining files of the batch are still processed, the
completion event still closes the stream, and the run still returns
success. -/
theorem c5_move_failure_nonfatal (exts : RStr) (existing : List RStr)
    (fs₁ fs₂ : List RFile) (f : RFile) (n : RStr)
    (hname : f.name = some n)
    (helig : shouldMove (normalizeExts exts) (pathExt f) = true)
    (hfail : f.renameOk = false) :
    (runDirectory exts true true existing (fs₁ ++ f :: fs₂)).ok = true ∧
    (runDirectory exts true true existing (fs₁ ++ f :: fs₂)).events =
      (processAll (normalizeExts exts) existing fs₁).1 ++
        Event.moveError n ::
          ((processAll (normalizeExts exts)
              (processAll (normalizeExts exts) existing fs₁).2 fs₂).1 ++
            [Event.completed]) := by
  obtain ⟨fname, rok⟩ := f
  simp only at hname hfail
  subst hname; subst hfail
  refine ⟨rfl, ?_⟩
  show ((processAll (normalizeExts exts) existing (fs₁ ++ _ :: fs₂)).1 ++
      [Event.completed]) = _
  rw [processAll_append]
  simp only [processAll]
  rw [processFile_eligible _ _ _ _ (by exact helig)]
  simp

/-- C5 witness: a one-file batch whose rename fails still completes with
success, the MoveError event preceding the completion event. -/
theorem c5_witness :
    (runDirectory (str "") true true []
      [{ name := some (str "a.txt"), renameOk := false }]).ok = true ∧
    (runDirectory (str "") true true []
      [{ name := some (str "a.txt"), renameOk := false }]).events =
      (processAll (normalizeExts (str "")) [] []).1 ++
        Event.moveError (str "a.txt") ::
          ((processAll (normalizeExts (str ""))
              (processAll (normalizeExts (str "")) [] []).2 []).1 ++
            [Event.completed]) :=
  c5_move_failure_nonfatal (str "") [] [] []
    { name := some (str "a.txt"), renameOk := false } (str "a.txt") rfl (by decide) rfl

/-- C8: for every eligible file of the batch, exactly one event is emitted
for it, and that event is either a Moved event or a MoveError event for
that file; the events of the files before and after it are unchanged. -/
theorem c8_exactly_one_event (filter ex : List RStr) (fs₁ fs₂ : List RFile)
    (f : RFile) (n : RStr) (hname : f.name = some n)
    (helig : shouldMove filter (pathExt f) = true) :
    ∃ e, (processAll filter ex (fs₁ ++ f :: fs₂)).1 =
        (processAll filter ex fs₁).1 ++ e ::
          (processAll filter
            (processFile filter (processAll filter ex fs₁).2 f).2 fs₂).1 ∧
      ((∃ d, e = Event.moved n d) ∨ e = Event.moveError n) := by
  obtain ⟨fname, rok⟩ := f
  simp only at hname
  subst hname
  rw [processAll_append]
  simp only [processAll]
  rw [processFile_eligible _ _ _ _ (by exact helig)]
  cases rok with
  | false =>
    exact ⟨Event.moveError n, by simp, Or.inr rfl⟩
  | true =>
    refine ⟨Event.moved n (resolveDest (processAll filter ex fs₁).2 n
      (some (rustFileStem n)) (rustExtension n)), by simp, Or.inl ⟨_, rfl⟩⟩

/-- C8 witness: a single eligible file under an empty filter gets exactly
one event, a Moved or MoveError event for it. -/
theorem c8_witness :
    ∃ e, (processAll [] [] ([] ++ { name := some (str "a"), renameOk := true } :: [])).1 =
        (processAll [] [] []).1 ++ e ::
          (processAll []
            (processFile [] (processAll [] [] []).2
              { name := some (str "a"), renameOk := true }).2 []).1 ∧
      ((∃ d, e = Event.moved (str "a") d) ∨ e = Event.moveError (str "a")) :=
  c8_exactly_one_event [] [] [] []
    { name := some (str "a"), renameOk := true } (str "a") rfl (by decide)

/-- Helper: packing a valid codepoint and unpacking it gives the same
number. -/
theorem toNat_ofNat_valid {n : Nat} (h : n.isValidChar) : (Char.ofNat n).toNat = n := by
  rw [Char.ofNat, dif_pos h]
  rfl

/-- Helper: codepoint arithmetic of ASCII lowercasing. -/
theorem toLower_toNat (c : Char) :
    (Char.toLower c).toNat =
      if 65 ≤ c.toNat ∧ c.toNat ≤ 90 then c.toNat + 32 else c.toNat := by
  unfold Char.toLower
  split
  · next h =>
    rw [if_pos (by omega)]
    exact toNat_ofNat_valid (Or.inl (by omega))
  · next h =>
    rw [if_neg (by omega)]

/-- Helper: characters agreeing on their codepoint are equal. -/
theorem toNat_inj {c d : Char} (h : c.toNat = d.toNat) : c = d :=
  Char.ext (UInt32.toNat.inj h)

/-- Helper: lowercasing fixes characters outside the upper-case ASCII
range. -/
theorem toLower_fix {c : Char} (h : ¬ (65 ≤ c.toNat ∧ c.toNat ≤ 90)) :
    Char.toLower c = c :=
  toNat_inj ((toLower_toNat c).trans (if_neg h))

/-- Helper: ASCII lowercasing is idempotent. -/
theorem toLower_idem (c : Char) : Char.toLower (Char.toLower c) = Char.toLower c := by
  by_cases h : 65 ≤ c.toNat ∧ c.toNat ≤ 90
  · apply toLower_fix
    rw [toLower_toNat, if_pos h]
    omega
  · rw [toLower_fix h]
    exact toLower_fix h

/-- Helper: only the dot lowercases to a dot. -/
theorem toLower_eq_dot {c : Char} (h : Char.toLower c = '.') : c = '.' := by
  by_cases hu : 65 ≤ c.toNat ∧ c.toNat ≤ 90
  · exfalso
    have hn := congrArg Char.toNat h
    rw [toLower_toNat, if_pos hu] at hn
    have hd : ('.' : Char).toNat = 46 := by decide
    omega
  · rwa [toLower_fix hu] at h

/-- Helper: only the comma lowercases to a comma. -/
theorem toLower_eq_comma {c : Char} (h : Char.toLower c = ',') : c = ',' := by
  by_cases hu : 65 ≤ c.toNat ∧ c.toNat ≤ 90
  · exfalso
    have hn := congrArg Char.toNat h
    rw [toLower_toNat, if_pos hu] at hn
    have hd : (',' : Char).toNat = 44 := by decide
    omega
  · rwa [toLower_fix hu] at h

/-- Helper: characters at or above codepoint 65 are not whitespace. -/
theorem isWs_false_of_ge {d : Char} (hd : 65 ≤ d.toNat) : isWs d = false := by
  have hne : ∀ t : Char, t.toNat < 65 → ¬ d = t := by
    intro t ht he
    rw [he] at hd
    omega
  simp [isWs, Char.isWhitespace, hne ' ' (by decide), hne '\t' (by decide),
    hne '\r' (by decide), hne '\n' (by decide)]

/-- Helper: lowercasing does not change whether a character is
whitespace. -/
theorem toLower_isWs (c : Char) : isWs (Char.toLower c) = isWs c := by
  by_cases hu : 65 ≤ c.toNat ∧ c.toNat ≤ 90
  · have hl : 65 ≤ (Char.toLower c).toNat := by
      rw [toLower_toNat, if_pos hu]
      omega
    rw [isWs_false_of_ge hl, isWs_false_of_ge (by omega)]
  · rw [toLower_fix hu]

/-- Helper: the extension Rust computes never contains a dot, being the
portion of the name after its final dot. -/
theorem rustExtension_no_dot {name e : RStr} (h : rustExtension name = some e) :
    '.' ∉ e := by
  unfold rustExtension at h
  split at h
  · exact absurd h (by simp)
  · split at h
    · exact absurd h (by simp)
    · exact absurd h (by simp)
    · injection h with h
      subst h
      intro hmem
      rw [List.mem_reverse] at hmem
      have := List.mem_takeWhile_imp hmem
      simp at this

/-- Helper: lowercasing cannot introduce a dot. -/
theorem toLowerR_no_dot {e : RStr} (h : '.' ∉ e) : '.' ∉ toLowerR e := by
  intro hm
  unfold toLowerR at hm
  rw [List.mem_map] at hm
  obtain ⟨c, hc, heq⟩ := hm
  exact h (toLower_eq_dot heq ▸ hc)

/-- C10: eligibility compares only the final extension component of a file
name: an extension never contains a dot, so a normalized filter entry that
still contains a dot, such as tar.gz, matches no file whatsoever, and a
leading-dot name with no further dot, such as .gitignore, has no extension
and is ineligible under every non-empty filter. -/
theorem c10_final_component_only :
    (∀ name e, rustExtension name = some e → '.' ∉ e) ∧
    (∀ name e x, rustExtension name = some e → '.' ∈ x → ¬ toLowerR e = x) ∧
    (∀ name, shouldMove [str "tar.gz"] (rustExtension name) = false) ∧
    rustExtension (str ".gitignore") = none ∧
    (∀ filterExts : List RStr, ¬ filterExts = [] →
      shouldMove filterExts (rustExtension (str ".gitignore")) = false) := by
  have h1 : ∀ name e, rustExtension name = some e → '.' ∉ e := by
    intro name e h
    exact rustExtension_no_dot h
  have h2 : ∀ name e x, rustExtension name = some e → '.' ∈ x → ¬ toLowerR e = x := by
    intro name e x hext hdot heq
    exact toLowerR_no_dot (h1 name e hext) (heq ▸ hdot)
  refine ⟨h1, h2, ?_, by decide, ?_⟩
  · intro name
    cases hext : rustExtension name with
    | none => rfl
    | some e =>
      show List.contains [str "tar.gz"] (toLowerR e) = false
      have hne := h2 name e (str "tar.gz") hext (by decide)
      simp [List.contains, hne]
  · intro filterExts hne
    unfold shouldMove
    rw [if_neg (by simpa using hne)]
    have hnone : rustExtension (str ".gitignore") = none := by decide
    rw [hnone]

/-- C10 witness: the .gitignore name is ineligible under the concrete
non-empty filter containing txt. -/
theorem c10_witness :
    ¬ [str "txt"] = ([] : List RStr) ∧
    shouldMove [str "txt"] (rustExtension (str ".gitignore")) = false :=
  ⟨by decide, c10_final_component_only.2.2.2.2 [str "txt"] (by decide)⟩

/-- Joining a list of strings with comma separators, the inverse direction
of splitComma, used to feed an already-normalized filter back into the
normalization. -/
def joinComma : List RStr → RStr
  | [] => []
  | [x] => x
  | x :: y :: rest => x ++ ',' :: joinComma (y :: rest)

/-- Helper: splitComma never returns the empty list of pieces. -/
theorem splitComma_ne_nil (s : RStr) : splitComma s ≠ [] := by
  cases s with
  | nil => simp [splitComma]
  | cons c rest =>
    simp only [splitComma]
    split <;> simp

/-- Helper: no piece produced by splitComma contains a comma. -/
theorem splitComma_no_comma : ∀ (s : RStr) (e : RStr), e ∈ splitComma s → ',' ∉ e := by
  intro s
  induction s with
  | nil =>
    intro e he
    simp [splitComma] at he
    subst he
    simp
  | cons c rest ih =>
    intro e he
    simp only [splitComma] at he
    split at he
    · rcases List.mem_cons.mp he with he | he
      · subst he; simp
      · exact ih e he
    · next hc =>
      rcases List.mem_cons.mp he with he | he
      · subst he
        intro hm
        rcases List.mem_cons.mp hm with hm | hm
        · exact hc hm.symm
        · cases hr : splitComma rest with
          | nil => exact splitComma_ne_nil rest hr
          | cons hd t =>
            rw [hr] at hm
            simp only [List.headD_cons] at hm
            exact ih hd (by rw [hr]; exact List.mem_cons_self hd t) hm
      · exact ih e (List.mem_of_mem_tail he)

/-- Helper: a string without a comma splits into the single piece it is. -/
theorem splitComma_of_no_comma {a : RStr} (h : ',' ∉ a) : splitComma a = [a] := by
  induction a with
  | nil => rfl
  | cons c t ih =>
    have hc : ¬ c = ',' := fun hcc => h (hcc ▸ List.mem_cons_self c t)
    have ht : ',' ∉ t := fun hm => h (List.mem_cons_of_mem c hm)
    simp only [splitComma]
    rw [if_neg hc, ih ht]
    simp

/-- Helper: splitting a string that starts with a comma-free piece followed
by a comma yields that piece and then the split of the remainder. -/
theorem splitComma_append (x w : RStr) (h : ',' ∉ x) :
    splitComma (x ++ ',' :: w) = x :: splitComma w := by
  induction x with
  | nil =>
    simp only [List.nil_append, splitComma]
    simp
  | cons c t ih =>
    have hc : ¬ c = ',' := fun hcc => h (hcc ▸ List.mem_cons_self c t)
    have ht : ',' ∉ t := fun hm => h (List.mem_cons_of_mem c hm)
    simp only [List.cons_append, splitComma, List.append_eq]
    rw [if_neg hc, ih ht]
    simp

/-- Helper: splitting the comma join of a nonempty list of comma-free
pieces recovers the list. -/
theorem splitComma_joinComma : ∀ L : List RStr, L ≠ [] →
    (∀ e ∈ L, ',' ∉ e) → splitComma (joinComma L) = L := by
  intro L
  induction L with
  | nil => intro h; exact absurd rfl h
  | cons x rest ih =>
    intro _ hc
    cases rest with
    | nil => exact splitComma_of_no_comma (hc x (List.mem_cons_self x []))
    | cons y rest2 =>
      show splitComma (x ++ ',' :: joinComma (y :: rest2)) = x :: y :: rest2
      rw [splitComma_append _ _ (hc x (List.mem_cons_self _ _))]
      rw [ih (by simp) (fun e hme => hc e (List.mem_cons_of_mem x hme))]

/-- Helper: the head of a dropWhile result fails the predicate. -/
theorem head?_dropWhile_false {α : Type} (p : α → Bool) (l : List α) :
    ∀ c, (l.dropWhile p).head? = some c → p c = false := by
  induction l with
  | nil => intro c h; simp [List.dropWhile] at h
  | cons a t ih =>
    intro c h
    by_cases hp : p a
    · rw [List.dropWhile_cons_of_pos hp] at h
      exact ih c h
    · rw [List.dropWhile_cons_of_neg hp] at h
      injection h with h
      subst h
      simpa using hp

/-- Helper: dropWhile is the identity when the head fails the predicate. -/
theorem dropWhile_fix {α : Type} (p : α → Bool) (l : List α)
    (h : ∀ c, l.head? = some c → p c = false) : l.dropWhile p = l := by
  cases l with
  | nil => rfl
  | cons a t =>
    have := h a rfl
    rw [List.dropWhile_cons_of_neg (by simp [this])]

/-- Helper: a nonempty dropWhile result keeps the last element of the
list. -/
theorem getLast?_dropWhile_of_ne_nil {α : Type} (p : α → Bool) (l : List α)
    (h : l.dropWhile p ≠ []) : (l.dropWhile p).getLast? = l.getLast? := by
  cases hg : (l.dropWhile p).getLast? with
  | none => exact absurd (List.getLast?_eq_none_iff.mp hg) h
  | some c =>
    have h2 : (l.takeWhile p ++ l.dropWhile p).getLast? = some c := by
      rw [List.getLast?_append, hg]
      rfl
    rw [List.takeWhile_append_dropWhile] at h2
    rw [h2]

/-- Helper: the first character of a trimmed string is not whitespace. -/
theorem trimWs_head (x : RStr) : ∀ c, (trimWs x).head? = some c → isWs c = false := by
  intro c h
  unfold trimWs at h
  rw [List.head?_reverse] at h
  have hne : (x.dropWhile isWs).reverse.dropWhile isWs ≠ [] := by
    intro h0
    rw [h0] at h
    simp at h
  rw [getLast?_dropWhile_of_ne_nil isWs _ hne, List.getLast?_reverse] at h
  exact head?_dropWhile_false isWs x c h

/-- Helper: the last character of a trimmed string is not whitespace. -/
theorem trimWs_last (x : RStr) : ∀ c, (trimWs x).getLast? = some c → isWs c = false := by
  intro c h
  unfold trimWs at h
  rw [List.getLast?_reverse] at h
  exact head?_dropWhile_false isWs _ c h

/-- Helper: trimming is the identity on strings with no whitespace at
either end. -/
theorem trimWs_fix (e : RStr) (hh : ∀ c, e.head? = some c → isWs c = false)
    (hl : ∀ c, e.getLast? = some c → isWs c = false) : trimWs e = e := by
  unfold trimWs
  rw [dropWhile_fix isWs e hh]
  rw [dropWhile_fix isWs e.reverse
    (by intro c h; rw [List.head?_reverse] at h; exact hl c h)]
  exact List.reverse_reverse e

/-- Helper: ASCII lowercasing of a whole string is idempotent. -/
theorem toLowerR_idem (z : RStr) : toLowerR (toLowerR z) = toLowerR z := by
  unfold toLowerR
  rw [List.map_map]
  exact List.map_congr_left (fun a _ => toLower_idem a)

/-- Helper: the normalization pipeline of one piece cannot contain a comma
when the piece has none. -/
theorem comma_not_mem_pipeline {x : RStr} (h : ',' ∉ x) :
    ',' ∉ toLowerR (dropDots (trimWs x)) := by
  intro hm
  unfold toLowerR at hm
  rw [List.mem_map] at hm
  obtain ⟨c, hc, heq⟩ := hm
  have hc' : c = ',' := toLower_eq_comma heq
  subst hc'
  have h1 : ',' ∈ trimWs x := List.dropWhile_subset _ hc
  have h2 : ',' ∈ x := by
    unfold trimWs at h1
    rw [List.mem_reverse] at h1
    have h3 := List.dropWhile_subset _ h1
    rw [List.mem_reverse] at h3
    exact List.dropWhile_subset _ h3
  exact h h2

/-- Helper: the last character of a normalized entry is never whitespace,
because trimming removed trailing whitespace and dot stripping and
lowercasing keep the last character non-whitespace. -/
theorem entry_last_not_ws {x e : RStr} (he : e = toLowerR (dropDots (trimWs x))) :
    ∀ c, e.getLast? = some c → isWs c = false := by
  intro c h
  subst he
  unfold toLowerR at h
  rw [List.getLast?_map] at h
  cases hz : (dropDots (trimWs x)).getLast? with
  | none =>
    rw [hz] at h
    simp at h
  | some d =>
    rw [hz] at h
    simp only [Option.map_some'] at h
    injection h with h
    have hnz : dropDots (trimWs x) ≠ [] := by
      intro h0
      rw [h0] at hz
      simp at hz
    unfold dropDots at hz hnz
    rw [getLast?_dropWhile_of_ne_nil _ _ hnz] at hz
    have hd := trimWs_last x d hz
    rw [← h, toLower_isWs]
    exact hd

/-- Helper: the first character of a normalized entry is never a dot,
because dot stripping removed every leading dot and lowercasing keeps
non-dots non-dots. -/
theorem entry_head_not_dot {x e : RStr} (he : e = toLowerR (dropDots (trimWs x))) :
    ∀ c, e.head? = some c → ¬ c = '.' := by
  intro c h
  subst he
  unfold toLowerR at h
  rw [List.head?_map] at h
  cases hz : (dropDots (trimWs x)).head? with
  | none =>
    rw [hz] at h
    simp at h
  | some d =>
    rw [hz] at h
    simp only [Option.map_some'] at h
    injection h with h
    have hd := head?_dropWhile_false _ _ d hz
    intro hcdot
    subst hcdot
    have hddot : d = '.' := toLower_eq_dot h
    rw [hddot] at hd
    simp at hd

/-- Helper: mapping a function that fixes every element of a list fixes the
list. -/
theorem map_fix {α : Type} (f : α → α) : ∀ l : List α,
    (∀ a ∈ l, f a = a) → l.map f = l := by
  intro l h
  induction l with
  | nil => rfl
  | cons a t ih =>
    rw [List.map_cons, h a (List.mem_cons_self a t),
      ih (fun b hb => h b (List.mem_cons_of_mem a hb))]

/-- Helper: an entry of a normalized filter whose first character is not
whitespace is a fixed point of the entry pipeline, is nonempty, and has no
comma. -/
theorem normalizeExts_entry_fix {s e : RStr} (he : e ∈ normalizeExts s)
    (hhead : ∀ c, e.head? = some c → isWs c = false) :
    toLowerR (dropDots (trimWs e)) = e ∧ e ≠ [] ∧ ',' ∉ e := by
  unfold normalizeExts at he
  rw [List.mem_filter] at he
  obtain ⟨hmem, hne⟩ := he
  rw [List.mem_map] at hmem
  obtain ⟨x, hx, hex⟩ := hmem
  have hne' : e ≠ [] := by simpa using hne
  have hlast := entry_last_not_ws hex.symm
  have hdot := entry_head_not_dot hex.symm
  have htrim : trimWs e = e := trimWs_fix e hhead hlast
  have hdrop : dropDots e = e := by
    apply dropWhile_fix
    intro c hc
    simp [hdot c hc]
  have hlower : toLowerR e = e := by
    rw [← hex]
    exact toLowerR_idem _
  refine ⟨?_, hne', ?_⟩
  · rw [htrim, hdrop, hlower]
  · rw [← hex]
    exact comma_not_mem_pipeline (splitComma_no_comma s x hx)

/-- C9 counterexample: normalization is not idempotent as claimed: for the
input of a dot, a space and the letter a, the first normalization keeps a
leading space in its single entry, and normalizing that result again trims
it, giving a different set. -/
theorem c9_counterexample :
    normalizeExts (str ". a") = [str " a"] ∧
    joinComma (normalizeExts (str ". a")) = str " a" ∧
    normalizeExts (joinComma (normalizeExts (str ". a"))) = [str "a"] ∧
    ¬ normalizeExts (joinComma (normalizeExts (str ". a"))) =
        normalizeExts (str ". a") := by
  decide

/-- C9 amended: normalization is idempotent for every extensions string
whose normalized entries do not begin with a whitespace character (dot
stripping can expose such whitespace); re-normalizing the comma join of
such a normalized set yields the same set. -/
theorem c9_idempotent_amended (s : RStr)
    (h : ∀ e ∈ normalizeExts s, (e.head?.all fun c => !isWs c) = true) :
    normalizeExts (joinComma (normalizeExts s)) = normalizeExts s := by
  have h' : ∀ e ∈ normalizeExts s, ∀ c, e.head? = some c → isWs c = false := by
    intro e he c hc
    have hh := h e he
    rw [hc] at hh
    simpa using hh
  by_cases hL : normalizeExts s = []
  · rw [hL]
    decide
  · have hcf : ∀ e ∈ normalizeExts s, ',' ∉ e := by
      intro e he
      exact (normalizeExts_entry_fix he (h' e he)).2.2
    have hsplit := splitComma_joinComma (normalizeExts s) hL hcf
    conv_lhs => rw [normalizeExts]
    rw [hsplit]
    rw [map_fix _ _ (fun e he => (normalizeExts_entry_fix he (h' e he)).1)]
    rw [List.filter_eq_self.mpr ?_]
    intro e he
    have := (normalizeExts_entry_fix he (h' e he)).2.1
    simpa using this

/-- C9 witness: re-normalizing the normalization of a concrete well-formed
filter string gives the same set. -/
theorem c9_witness :
    (∀ e ∈ normalizeExts (str "pdf, JPG"), (e.head?.all fun c => !isWs c) = true) ∧
    normalizeExts (joinComma (normalizeExts (str "pdf, JPG"))) =
      normalizeExts (str "pdf, JPG") :=
  ⟨by decide, c9_idempotent_amended (str "pdf, JPG") (by decide)⟩

end MoveFilesGui
